import Mathlib

/-
Verification of the Banker's algorithm implementation in src/main.rs.

The embedding below follows the Rust source:
  - u8 values are modelled as Nat; the one place where u8 arithmetic can
    overflow (the running total `total_allocated[i] += process.allocation[i]`
    in BankersAlgorithm::new) is modelled with an explicit `% 256`,
    matching two's-complement wrap-around of release builds;
  - i32 values (`available`, `work`) are modelled as Int;
  - fallible construction returns Except; the error constructors correspond
    to the distinct rejection sites of the source (distinct eprintln!/Err
    branches);
  - the interactive input loop of BankersAlgorithm::new retries an entry
    until it passes validation, so a finalized system is exactly one built
    from a list of entries that all pass validation; `bankers_new` takes
    that list of (allocation, max_need) entries directly.
-/

/-- Mirrors `struct Process` of the source: an id, the held allocation,
the declared maximum need and the derived remaining need. -/
structure Process where
  id : Nat
  allocation : List Nat
  max_need : List Nat
  need : List Nat
deriving DecidableEq

/-- Placeholder process used as the (never reached) default of list lookups;
the source indexes `self.processes[i]` only at indices below the length. -/
def pdefault : Process := ⟨0, [], [], []⟩

/-- The two distinct error branches of `Process::new` (the source formats
them as strings; the payloads are the values interpolated into the message). -/
inductive ProcessError where
  | lengthMismatch (id : Nat)
  | overAllocation (id idx a m : Nat)
deriving DecidableEq

/-- Mirrors the `for i in 0..allocation.len()` loop of `Process::new`:
checks `allocation[i] > max_need[i]` and pushes `max_need[i] - allocation[i]`.
The final catch-all case is unreachable when both lists have equal length. -/
def mkNeed (id : Nat) : Nat → List Nat → List Nat → Except ProcessError (List Nat)
  | _, [], [] => .ok []
  | idx, a :: as, m :: ms =>
    if a > m then .error (.overAllocation id idx a m)
    else
      match mkNeed id (idx + 1) as ms with
      | .error e => .error e
      | .ok rest => .ok ((m - a) :: rest)
  | _, _, _ => .error (.lengthMismatch id)

/-- Mirrors `Process::new` of the source. -/
def Process.new (id : Nat) (allocation max_need : List Nat) : Except ProcessError Process :=
  if allocation.length ≠ max_need.length then .error (.lengthMismatch id)
  else
    match mkNeed id 0 allocation max_need with
    | .error e => .error e
    | .ok need => .ok ⟨id, allocation, max_need, need⟩

/-- Mirrors `struct BankersAlgorithm` of the source. -/
structure BankersAlgorithm where
  available : List Int
  resources : List Nat
  processes : List Process
deriving DecidableEq

/-- Mirrors the inner `for k in 0..num_resources` feasibility loop of
`is_safe_state`: `can_allocate` stays true iff no resource index has
`need[k] as i32 > work[k]`. -/
def canAllocate (nr : Nat) (need : List Nat) (work : List Int) : Bool :=
  (List.range nr).all fun k => !(decide ((need.getD k 0 : Int) > work.getD k 0))

/-- Mirrors the grant loop `work[k] += allocation[k] as i32` for
`k in 0..num_resources` of `is_safe_state`. -/
def addWork (nr : Nat) (work : List Int) (alloc : List Nat) : List Int :=
  (List.range nr).map fun k => work.getD k 0 + (alloc.getD k 0 : Int)

/-- State of one scan of `is_safe_state`: the `finish` vector, the `work`
vector, the accumulated `safe_sequence`, and `found_process_this_pass`. -/
abbrev PassState := List Bool × List Int × List Nat × Bool

/-- Body of the `for i in 0..num_processes` loop of `is_safe_state`:
skip finished processes, test feasibility, and on success release the
allocation into `work`, mark the process finished and record its id. -/
def passStep (nr : Nat) (procs : List Process) (st : PassState) (i : Nat) : PassState :=
  if st.1.getD i true = false then
    if canAllocate nr (procs.getD i pdefault).need st.2.1 then
      (st.1.set i true, addWork nr st.2.1 (procs.getD i pdefault).allocation,
        st.2.2.1 ++ [(procs.getD i pdefault).id], true)
    else st
  else st

/-- One full pass of the outer loop of `is_safe_state`:
`found_process_this_pass` starts false, then every process index is visited
in ascending order, updating `work` incrementally within the pass. -/
def onePass (nr : Nat) (procs : List Process) (fins : List Bool) (work : List Int)
    (seq : List Nat) : PassState :=
  (List.range procs.length).foldl (passStep nr procs) (fins, work, seq, false)

/-- Number of unfinished entries of the `finish` vector. -/
def countUnfin : List Bool → Nat
  | [] => 0
  | b :: bs => (if b then 0 else 1) + countUnfin bs

/-- The outer `loop { ... if !found_process_this_pass { break } }` of
`is_safe_state`. The source loop is unbounded; here it carries an explicit
pass budget, and `safetyLoop_stable` proves that any budget larger than the
number of unfinished processes yields the same result, i.e. the budget is
never what stops the loop. -/
def safetyLoop (nr : Nat) (procs : List Process) :
    Nat → List Bool → List Int → List Nat → List Bool × List Int × List Nat
  | 0, fins, work, seq => (fins, work, seq)
  | fuel + 1, fins, work, seq =>
    let r := onePass nr procs fins work seq
    if r.2.2.2 then safetyLoop nr procs fuel r.1 r.2.1 r.2.2.1
    else (r.1, r.2.1, r.2.2.1)

/-- Mirrors `BankersAlgorithm::is_safe_state`: copy `available` into `work`,
start with every process unfinished, scan until a pass grants nothing, and
return the accumulated sequence iff every process finished. -/
def is_safe_state (s : BankersAlgorithm) : Option (List Nat) :=
  let np := s.processes.length
  let r := safetyLoop s.resources.length s.processes (np + 1)
    (List.replicate np false) s.available []
  if r.1.all (fun f => f) then some r.2.2 else none

/-- Explicit state-passing form of `is_safe_state`: the source receiver is
`&mut self`, but the body only ever reads `self` (all writes go to the local
`work`, `finish` and `safe_sequence`), so the state handed back is the state
passed in. -/
def is_safe_state_mut (s : BankersAlgorithm) : BankersAlgorithm × Option (List Nat) :=
  (s, is_safe_state s)

/-- Distinct failure exits of `BankersAlgorithm::new`: an entry the input
loop rejects (it would re-prompt forever on fixed input), the
`processes.is_empty()` exit, and the `possible_state = false` exit where the
total allocation exceeds capacity at some index. -/
inductive BuildError where
  | invalidEntry
  | emptySystem
  | overCommitted
deriving DecidableEq

/-- Mirrors the validation of one entered vector inside the input loops of
`BankersAlgorithm::new`: the length must equal the number of resources and
no entry may exceed the total resources at its index. -/
def validEntryVec (nr : Nat) (resources v : List Nat) : Bool :=
  decide (v.length = nr) &&
    (List.range nr).all fun k => !(decide (v.getD k 0 > resources.getD k 0))

/-- Mirrors `total_allocated[i] += process.allocation[i]` for
`i in 0..num_resources`: u8 addition, hence wrap-around modulo 256. -/
def addAlloc (nr : Nat) (total alloc : List Nat) : List Nat :=
  (List.range nr).map fun k => (total.getD k 0 + alloc.getD k 0) % 256

/-- Mirrors the process-creation loop of `BankersAlgorithm::new`: each entry
is validated against the resources vector, built with `Process::new` using
the next sequential id, and its allocation added into the running total. -/
def addProcesses (nr : Nat) (resources : List Nat) :
    List (List Nat × List Nat) → Nat → List Nat → Except BuildError (List Process × List Nat)
  | [], _, total => .ok ([], total)
  | (alloc, maxn) :: rest, id, total =>
    if validEntryVec nr resources alloc && validEntryVec nr resources maxn then
      match Process.new id alloc maxn with
      | .error _ => .error .invalidEntry
      | .ok p =>
        match addProcesses nr resources rest (id + 1) (addAlloc nr total alloc) with
        | .error e => .error e
        | .ok (ps, t) => .ok (p :: ps, t)
    else .error .invalidEntry

/-- Mirrors `BankersAlgorithm::new` on already-read input: the resources
vector must be nonempty, every entry must validate, at least one process must
exist, then `available[i] = resources[i] as i32 - total_allocated[i] as i32`
is computed and the state is rejected iff some entry is negative. -/
def bankers_new (resources : List Nat) (entries : List (List Nat × List Nat)) :
    Except BuildError BankersAlgorithm :=
  if resources.isEmpty then .error .invalidEntry
  else
    match addProcesses resources.length resources entries 0
        (List.replicate resources.length 0) with
    | .error e => .error e
    | .ok (ps, total) =>
      if ps.isEmpty then .error .emptySystem
      else
        let available := (List.range resources.length).map
          fun k => (resources.getD k 0 : Int) - (total.getD k 0 : Int)
        if available.all fun a => !(decide (a < 0)) then
          .ok ⟨available, resources, ps⟩
        else .error .overCommitted

deriving instance DecidableEq for Except

/-- Modelled from the spec (§4.3 step 2, glossary "Safe sequence"): a process
can finish when, for every resource index k, its remaining need at k is at
most the work at k. -/
def specFeasible (nr : Nat) (need : List Nat) (work : List Int) : Bool :=
  (List.range nr).all fun k => decide ((need.getD k 0 : Int) ≤ work.getD k 0)

/-- Modelled from the spec (§4.3 step 2): after a process finishes, its
allocation is released into the work vector, index by index. -/
def specRelease (nr : Nat) (work : List Int) (alloc : List Nat) : List Int :=
  (List.range nr).map fun k => work.getD k 0 + (alloc.getD k 0 : Int)

/-- Modelled from the spec (glossary "Safe sequence"): an ordering of process
ids in which each process, when reached, has enough work to cover its need
and then releases its allocation into work. -/
def safeOrderFrom (nr : Nat) (procs : List Process) : List Int → List Nat → Bool
  | _, [] => true
  | work, i :: rest =>
    specFeasible nr (procs.getD i pdefault).need work &&
      safeOrderFrom nr procs (specRelease nr work (procs.getD i pdefault).allocation) rest

/-- Work vector obtained after processing a list of process ids in order,
releasing each allocation in turn. -/
def orderWork (nr : Nat) (procs : List Process) : List Int → List Nat → List Int
  | work, [] => work
  | work, i :: rest =>
    orderWork nr procs (specRelease nr work (procs.getD i pdefault).allocation) rest

/-- Shape of a finalized system state: `available` is index-aligned with
`resources`, every process vector is index-aligned with `resources`, and
process ids are the sequential creation indices 0, 1, 2, ... -/
def wfState (s : BankersAlgorithm) : Bool :=
  decide (s.available.length = s.resources.length) &&
    (s.processes.all fun p =>
      decide (p.allocation.length = s.resources.length) &&
        decide (p.need.length = s.resources.length)) &&
    (List.range s.processes.length).all fun i =>
      decide ((s.processes.getD i pdefault).id = i)

/-- Total units of resource k currently allocated across a process list
(exact arithmetic, no wrap-around). -/
def sumAllocAt (procs : List Process) (k : Nat) : Int :=
  (procs.map fun p => ((p.allocation.getD k 0 : Nat) : Int)).sum

/-- Every entry of a work vector is nonnegative. -/
def nonnegWork (w : List Int) : Bool :=
  w.all fun x => decide (0 ≤ x)

/-- The finalized system of Scenario A of the spec. -/
def stateA : BankersAlgorithm :=
  ⟨[3, 3, 2], [10, 5, 7],
    [⟨0, [0, 1, 0], [7, 5, 3], [7, 4, 3]⟩,
     ⟨1, [2, 0, 0], [3, 2, 2], [1, 2, 2]⟩,
     ⟨2, [3, 0, 2], [9, 0, 2], [6, 0, 0]⟩,
     ⟨3, [2, 1, 1], [2, 2, 2], [0, 1, 1]⟩,
     ⟨4, [0, 0, 2], [4, 3, 3], [4, 3, 1]⟩]⟩

/-- Entry list of Scenario A. -/
def entriesA : List (List Nat × List Nat) :=
  [([0, 1, 0], [7, 5, 3]), ([2, 0, 0], [3, 2, 2]), ([3, 0, 2], [9, 0, 2]),
   ([2, 1, 1], [2, 2, 2]), ([0, 0, 2], [4, 3, 3])]

/-- Scenario A with different capacity values (same length, same available,
same processes). -/
def stateA2 : BankersAlgorithm := ⟨[3, 3, 2], [9, 9, 9], stateA.processes⟩

/-- The state the builder actually produces on capacities [200] with two
processes each holding 150: the u8 running total wraps to 44, so
finalization succeeds with available 156. -/
def stateWrapA : BankersAlgorithm :=
  ⟨[156], [200], [⟨0, [150], [200], [50]⟩, ⟨1, [150], [200], [50]⟩]⟩

/-- The state the builder actually produces on capacities [250] with two
processes each holding 130: the u8 running total wraps to 4, so finalization
succeeds with available 246 although 260 units are allocated. -/
def stateWrapB : BankersAlgorithm :=
  ⟨[246], [250], [⟨0, [130], [250], [120]⟩, ⟨1, [130], [250], [120]⟩]⟩

/-- Invariant tying the loop state of `is_safe_state` to the spec-level
notion of a safe order: the finish vector has one flag per process, the
accumulated sequence holds exactly the finished process indices without
repetition, that sequence is safe from the initial available vector, and the
current work is the work reached after it. -/
def AlgInv (nr : Nat) (procs : List Process) (avail : List Int)
    (fins : List Bool) (work : List Int) (seq : List Nat) : Prop :=
  fins.length = procs.length ∧
  (∀ j ∈ seq, j < procs.length) ∧
  seq.Nodup ∧
  (∀ i, i < procs.length → (fins.getD i true = true ↔ i ∈ seq)) ∧
  safeOrderFrom nr procs avail seq = true ∧
  work = orderWork nr procs avail seq

/-- The final loop state of `is_safe_state` on a given system. -/
def finalState (nr : Nat) (procs : List Process) (avail : List Int) :
    List Bool × List Int × List Nat :=
  safetyLoop nr procs (procs.length + 1) (List.replicate procs.length false) avail []

/-- Index lookup below the length agrees with the total lookup. -/
theorem getD_eq_getElem {α : Type} (l : List α) (i : Nat) (d : α) (h : i < l.length) :
    l.getD i d = l[i] := by
  rw [List.getD_eq_getElem?_getD, List.getElem?_eq_getElem h]
  rfl

/-- A lookup below the length is a member of the list. -/
theorem getD_mem {α : Type} (l : List α) (i : Nat) (d : α) (h : i < l.length) :
    l.getD i d ∈ l := by
  rw [getD_eq_getElem l i d h]
  exact List.getElem_mem h

/-- Lookup into a mapped range below the bound. -/
theorem getD_map_range {α : Type} (f : Nat → α) (n k : Nat) (d : α) (h : k < n) :
    ((List.range n).map f).getD k d = f k := by
  rw [List.getD_eq_getElem?_getD, List.getElem?_map, List.getElem?_range h]
  rfl

/-- Lookup into a replicated list below the length. -/
theorem getD_replicate {α : Type} (n i : Nat) (a d : α) (h : i < n) :
    (List.replicate n a).getD i d = a := by
  rw [List.getD_eq_getElem?_getD, List.getElem?_replicate, if_pos h]
  rfl

/-- Lookup at the just-updated index. -/
theorem getD_set_self {α : Type} (l : List α) (i : Nat) (a d : α) (h : i < l.length) :
    (l.set i a).getD i d = a := by
  rw [List.getD_eq_getElem?_getD, List.getElem?_set, if_pos rfl, if_pos h]
  rfl

/-- Lookup away from the updated index. -/
theorem getD_set_ne {α : Type} (l : List α) (i j : Nat) (a d : α) (h : i ≠ j) :
    (l.set i a).getD j d = l.getD j d := by
  rw [List.getD_eq_getElem?_getD, List.getElem?_set, if_neg h, List.getD_eq_getElem?_getD]

/-- Marking an entry finished cannot increase the number of unfinished entries. -/
theorem countUnfin_set_le (l : List Bool) (i : Nat) :
    countUnfin (l.set i true) ≤ countUnfin l := by
  induction l generalizing i with
  | nil => exact Nat.le_refl _
  | cons b bs ih =>
    cases i with
    | zero =>
      simp only [List.set, countUnfin]
      cases b <;> simp
    | succ i =>
      simp only [List.set, countUnfin]
      have := ih i
      omega

/-- Marking a currently unfinished entry finished strictly decreases the
number of unfinished entries. -/
theorem countUnfin_set_lt (l : List Bool) (i : Nat) (h : l.getD i true = false) :
    countUnfin (l.set i true) < countUnfin l := by
  induction l generalizing i with
  | nil => simp [List.getD] at h
  | cons b bs ih =>
    cases i with
    | zero =>
      rw [List.getD_cons_zero] at h
      subst h
      show countUnfin (true :: bs) < countUnfin (false :: bs)
      simp [countUnfin]
    | succ i =>
      rw [List.getD_cons_succ] at h
      show countUnfin (b :: bs.set i true) < countUnfin (b :: bs)
      simp only [countUnfin]
      have := ih i h
      omega

/-- A fully unfinished vector of length n has n unfinished entries. -/
theorem countUnfin_replicate (n : Nat) : countUnfin (List.replicate n false) = n := by
  induction n with
  | zero => rfl
  | succ n ih =>
    rw [List.replicate_succ]
    show (if (false : Bool) = true then 0 else 1) + countUnfin (List.replicate n false) = n + 1
    rw [if_neg (by simp), ih]
    omega

/-- The feasibility test of the source (no index with need above work) agrees
with the spec-level feasibility (need at most work at every index). -/
theorem canAllocate_eq_specFeasible (nr : Nat) (need : List Nat) (work : List Int) :
    canAllocate nr need work = specFeasible nr need work := by
  unfold canAllocate specFeasible
  apply Bool.eq_iff_iff.mpr
  rw [List.all_eq_true, List.all_eq_true]
  constructor <;>
    (intro h k hk
     have hh := h k hk
     simp only [Bool.not_eq_true', decide_eq_false_iff_not, decide_eq_true_eq,
       gt_iff_lt, not_lt] at hh ⊢
     exact hh)

/-- Releasing an allocation into work is the same operation in the source
loop and in the spec wording. -/
theorem addWork_eq_specRelease (nr : Nat) (work : List Int) (alloc : List Nat) :
    addWork nr work alloc = specRelease nr work alloc := rfl

/-- A pass step never changes the length of the finish vector. -/
theorem passStep_length (nr : Nat) (procs : List Process) (st : PassState) (i : Nat) :
    (passStep nr procs st i).1.length = st.1.length := by
  unfold passStep
  split
  · split
    · exact List.length_set st.1 i true
    · rfl
  · rfl

/-- A whole scan never changes the length of the finish vector. -/
theorem foldl_passStep_length (nr : Nat) (procs : List Process) (l : List Nat)
    (st : PassState) :
    (l.foldl (passStep nr procs) st).1.length = st.1.length := by
  induction l generalizing st with
  | nil => rfl
  | cons i l ih =>
    rw [List.foldl_cons, ih, passStep_length]

/-- A scan can only decrease the number of unfinished processes. -/
theorem foldl_passStep_countUnfin_le (nr : Nat) (procs : List Process) (l : List Nat)
    (st : PassState) :
    countUnfin (l.foldl (passStep nr procs) st).1 ≤ countUnfin st.1 := by
  induction l generalizing st with
  | nil => exact Nat.le_refl _
  | cons i l ih =>
    rw [List.foldl_cons]
    refine Nat.le_trans (ih _) ?_
    unfold passStep
    split
    · split
      · exact countUnfin_set_le st.1 i
      · exact Nat.le_refl _
    · exact Nat.le_refl _

/-- Once the found flag is set within a pass it stays set to the end. -/
theorem foldl_passStep_found_sticky (nr : Nat) (procs : List Process) (l : List Nat)
    (st : PassState) (h : st.2.2.2 = true) :
    (l.foldl (passStep nr procs) st).2.2.2 = true := by
  induction l generalizing st with
  | nil => exact h
  | cons i l ih =>
    rw [List.foldl_cons]
    apply ih
    unfold passStep
    split
    · split
      · rfl
      · exact h
    · exact h

/-- If a scan ends with the found flag set, then either it was already set
at the start or some previously unfinished process was granted during the
scan, strictly decreasing the number of unfinished processes. -/
theorem foldl_passStep_found (nr : Nat) (procs : List Process) (l : List Nat)
    (st : PassState) (h : (l.foldl (passStep nr procs) st).2.2.2 = true) :
    st.2.2.2 = true ∨ countUnfin (l.foldl (passStep nr procs) st).1 < countUnfin st.1 := by
  induction l generalizing st with
  | nil => exact Or.inl h
  | cons i l ih =>
    rw [List.foldl_cons] at h ⊢
    by_cases h1 : st.1.getD i true = false
    · by_cases h2 : canAllocate nr (procs.getD i pdefault).need st.2.1 = true
      · right
        have hstep : (passStep nr procs st i).1 = st.1.set i true := by
          unfold passStep
          rw [if_pos h1, if_pos h2]
        have hle := foldl_passStep_countUnfin_le nr procs l (passStep nr procs st i)
        have hlt : countUnfin (passStep nr procs st i).1 < countUnfin st.1 := by
          rw [hstep]
          exact countUnfin_set_lt st.1 i h1
        exact Nat.lt_of_le_of_lt hle hlt
      · have hstep : passStep nr procs st i = st := by
          unfold passStep
          rw [if_pos h1, if_neg h2]
        rw [hstep] at h ⊢
        exact ih st h
    · have hstep : passStep nr procs st i = st := by
        unfold passStep
        rw [if_neg h1]
      rw [hstep] at h ⊢
      exact ih st h

/-- If a scan ends with the found flag clear, the scan changed nothing, the
flag was clear at the start, and every process that was unfinished at the
start of the scan failed its feasibility test against the (unchanged) work. -/
theorem foldl_passStep_stuck (nr : Nat) (procs : List Process) (l : List Nat)
    (st : PassState) (h : (l.foldl (passStep nr procs) st).2.2.2 = false) :
    l.foldl (passStep nr procs) st = st ∧ st.2.2.2 = false ∧
      ∀ i ∈ l, st.1.getD i true = false →
        canAllocate nr (procs.getD i pdefault).need st.2.1 = false := by
  induction l generalizing st with
  | nil =>
    refine ⟨rfl, h, ?_⟩
    intro i hi
    cases hi
  | cons i l ih =>
    rw [List.foldl_cons] at h
    by_cases h1 : st.1.getD i true = false
    · by_cases h2 : canAllocate nr (procs.getD i pdefault).need st.2.1 = true
      · exfalso
        have hfound : (passStep nr procs st i).2.2.2 = true := by
          unfold passStep
          rw [if_pos h1, if_pos h2]
        have := foldl_passStep_found_sticky nr procs l (passStep nr procs st i) hfound
        rw [h] at this
        cases this
      · have hstep : passStep nr procs st i = st := by
          unfold passStep
          rw [if_pos h1, if_neg h2]
        rw [hstep] at h
        obtain ⟨hfix, hflag, hall⟩ := ih st h
        refine ⟨by rw [List.foldl_cons, hstep, hfix], hflag, ?_⟩
        intro j hj hfin
        rcases List.mem_cons.mp hj with rfl | hj2
        · exact Bool.eq_false_iff.mpr h2
        · exact hall j hj2 hfin
    · have hstep : passStep nr procs st i = st := by
        unfold passStep
        rw [if_neg h1]
      rw [hstep] at h
      obtain ⟨hfix, hflag, hall⟩ := ih st h
      refine ⟨by rw [List.foldl_cons, hstep, hfix], hflag, ?_⟩
      intro j hj hfin
      rcases List.mem_cons.mp hj with rfl | hj2
      · exact absurd hfin h1
      · exact hall j hj2 hfin

/-- Safety of an order splits at an append: the tail must be safe from the
work reached after the prefix. -/
theorem safeOrderFrom_append (nr : Nat) (procs : List Process) (w : List Int)
    (s t : List Nat) :
    safeOrderFrom nr procs w (s ++ t) =
      (safeOrderFrom nr procs w s &&
        safeOrderFrom nr procs (orderWork nr procs w s) t) := by
  induction s generalizing w with
  | nil => simp [safeOrderFrom, orderWork]
  | cons i s ih =>
    simp only [List.cons_append, safeOrderFrom, orderWork, List.append_eq, ih,
      Bool.and_assoc]

/-- The work after an appended order is the work after the prefix pushed
through the suffix. -/
theorem orderWork_append (nr : Nat) (procs : List Process) (w : List Int)
    (s t : List Nat) :
    orderWork nr procs w (s ++ t) = orderWork nr procs (orderWork nr procs w s) t := by
  induction s generalizing w with
  | nil => simp [orderWork]
  | cons i s ih => simp only [List.cons_append, orderWork, List.append_eq, ih]

/-- A one-element order is safe exactly when that process is feasible. -/
theorem safeOrderFrom_singleton (nr : Nat) (procs : List Process) (w : List Int) (i : Nat) :
    safeOrderFrom nr procs w [i] = specFeasible nr (procs.getD i pdefault).need w := by
  simp [safeOrderFrom]

/-- Pushing work through a one-element order releases that allocation. -/
theorem orderWork_singleton (nr : Nat) (procs : List Process) (w : List Int) (i : Nat) :
    orderWork nr procs w [i] = specRelease nr w (procs.getD i pdefault).allocation := rfl

/-- One step of a scan preserves the loop invariant. -/
theorem passStep_inv (nr : Nat) (procs : List Process) (avail : List Int)
    (hid : ∀ i, i < procs.length → (procs.getD i pdefault).id = i)
    (st : PassState) (i : Nat) (hi : i < procs.length)
    (h : AlgInv nr procs avail st.1 st.2.1 st.2.2.1) :
    AlgInv nr procs avail (passStep nr procs st i).1 (passStep nr procs st i).2.1
      (passStep nr procs st i).2.2.1 := by
  obtain ⟨hlen, hmem, hnd, hiff, hord, hwork⟩ := h
  by_cases h1 : st.1.getD i true = false
  · by_cases h2 : canAllocate nr (procs.getD i pdefault).need st.2.1 = true
    · have hstep : passStep nr procs st i =
          (st.1.set i true, addWork nr st.2.1 (procs.getD i pdefault).allocation,
            st.2.2.1 ++ [i], true) := by
        unfold passStep
        rw [if_pos h1, if_pos h2, hid i hi]
      rw [hstep]
      have hnotmem : i ∉ st.2.2.1 := by
        intro hmem2
        have := (hiff i hi).mpr hmem2
        rw [h1] at this
        cases this
      refine ⟨?_, ?_, ?_, ?_, ?_, ?_⟩
      · rw [List.length_set]
        exact hlen
      · intro j hj
        rcases List.mem_append.mp hj with hj1 | hj2
        · exact hmem j hj1
        · rcases List.mem_singleton.mp hj2 with rfl
          exact hi
      · rw [List.nodup_append]
        refine ⟨hnd, List.nodup_singleton i, ?_⟩
        intro j hj1 hj2
        rcases List.mem_singleton.mp hj2 with rfl
        exact hnotmem hj1
      · intro j hj
        by_cases hji : j = i
        · subst hji
          constructor
          · intro _
            exact List.mem_append.mpr (Or.inr (List.mem_singleton.mpr rfl))
          · intro _
            exact getD_set_self st.1 j true true (hlen ▸ hj)
        · rw [getD_set_ne st.1 i j true true (fun he => hji he.symm)]
          rw [hiff j hj]
          constructor
          · intro hj2
            exact List.mem_append.mpr (Or.inl hj2)
          · intro hj2
            rcases List.mem_append.mp hj2 with hj3 | hj3
            · exact hj3
            · exact absurd (List.mem_singleton.mp hj3) hji
      · rw [safeOrderFrom_append, hord, Bool.true_and, safeOrderFrom_singleton, ← hwork]
        rw [canAllocate_eq_specFeasible] at h2
        exact h2
      · rw [orderWork_append, orderWork_singleton, ← hwork]
        exact addWork_eq_specRelease nr st.2.1 (procs.getD i pdefault).allocation
    · have hstep : passStep nr procs st i = st := by
        unfold passStep
        rw [if_pos h1, if_neg h2]
      rw [hstep]
      exact ⟨hlen, hmem, hnd, hiff, hord, hwork⟩
  · have hstep : passStep nr procs st i = st := by
      unfold passStep
      rw [if_neg h1]
    rw [hstep]
    exact ⟨hlen, hmem, hnd, hiff, hord, hwork⟩

/-- A scan over in-range indices preserves the loop invariant. -/
theorem foldl_passStep_inv (nr : Nat) (procs : List Process) (avail : List Int)
    (hid : ∀ i, i < procs.length → (procs.getD i pdefault).id = i)
    (l : List Nat) (hl : ∀ i ∈ l, i < procs.length) (st : PassState)
    (h : AlgInv nr procs avail st.1 st.2.1 st.2.2.1) :
    AlgInv nr procs avail (l.foldl (passStep nr procs) st).1
      (l.foldl (passStep nr procs) st).2.1 (l.foldl (passStep nr procs) st).2.2.1 := by
  induction l generalizing st with
  | nil => exact h
  | cons i l ih =>
    rw [List.foldl_cons]
    exact ih (fun j hj => hl j (List.mem_cons_of_mem i hj)) _
      (passStep_inv nr procs avail hid st i (hl i (List.mem_cons_self i l)) h)

/-- Unfolding of one iteration of the outer loop. -/
theorem safetyLoop_succ (nr : Nat) (procs : List Process) (fuel : Nat)
    (fins : List Bool) (work : List Int) (seq : List Nat) :
    safetyLoop nr procs (fuel + 1) fins work seq =
      if (onePass nr procs fins work seq).2.2.2 then
        safetyLoop nr procs fuel (onePass nr procs fins work seq).1
          (onePass nr procs fins work seq).2.1 (onePass nr procs fins work seq).2.2.1
      else ((onePass nr procs fins work seq).1, (onePass nr procs fins work seq).2.1,
        (onePass nr procs fins work seq).2.2.1) := rfl

/-- A pass that sets the found flag strictly decreases the number of
unfinished processes. -/
theorem onePass_found_decrease (nr : Nat) (procs : List Process) (fins : List Bool)
    (work : List Int) (seq : List Nat) (h : (onePass nr procs fins work seq).2.2.2 = true) :
    countUnfin (onePass nr procs fins work seq).1 < countUnfin fins := by
  unfold onePass at h ⊢
  rcases foldl_passStep_found nr procs (List.range procs.length)
    (fins, work, seq, false) h with h1 | h2
  · cases h1
  · exact h2

/-- A pass that clears the found flag leaves the pass state exactly as it
was at the start of the pass. -/
theorem onePass_fix (nr : Nat) (procs : List Process) (fins : List Bool)
    (work : List Int) (seq : List Nat) (h : (onePass nr procs fins work seq).2.2.2 = false) :
    onePass nr procs fins work seq = (fins, work, seq, false) := by
  unfold onePass at h ⊢
  exact (foldl_passStep_stuck nr procs (List.range procs.length)
    (fins, work, seq, false) h).1

/-- Any two pass budgets larger than the number of unfinished processes give
the same loop result: the budget is never what stops the loop. -/
theorem safetyLoop_stable (nr : Nat) (procs : List Process) (fuel fuel2 : Nat)
    (fins : List Bool) (work : List Int) (seq : List Nat)
    (h : countUnfin fins < fuel) (h2 : countUnfin fins < fuel2) :
    safetyLoop nr procs fuel fins work seq = safetyLoop nr procs fuel2 fins work seq := by
  induction fuel generalizing fuel2 fins work seq with
  | zero => omega
  | succ fuel ih =>
    cases fuel2 with
    | zero => omega
    | succ fuel2 =>
      rw [safetyLoop_succ, safetyLoop_succ]
      by_cases hf : (onePass nr procs fins work seq).2.2.2 = true
      · rw [if_pos hf, if_pos hf]
        have hd := onePass_found_decrease nr procs fins work seq hf
        exact ih fuel2 _ _ _ (by omega) (by omega)
      · rw [if_neg hf, if_neg hf]

/-- With a sufficient pass budget the loop genuinely reaches its fixed point:
running one more pass on the result would grant nothing. -/
theorem safetyLoop_exit (nr : Nat) (procs : List Process) (fuel : Nat)
    (fins : List Bool) (work : List Int) (seq : List Nat) (h : countUnfin fins < fuel) :
    (onePass nr procs (safetyLoop nr procs fuel fins work seq).1
      (safetyLoop nr procs fuel fins work seq).2.1
      (safetyLoop nr procs fuel fins work seq).2.2).2.2.2 = false := by
  induction fuel generalizing fins work seq with
  | zero => omega
  | succ fuel ih =>
    rw [safetyLoop_succ]
    by_cases hf : (onePass nr procs fins work seq).2.2.2 = true
    · rw [if_pos hf]
      have hd := onePass_found_decrease nr procs fins work seq hf
      exact ih _ _ _ (by omega)
    · rw [if_neg hf]
      have hff : (onePass nr procs fins work seq).2.2.2 = false :=
        Bool.eq_false_iff.mpr hf
      have hfix := onePass_fix nr procs fins work seq hff
      show (onePass nr procs (onePass nr procs fins work seq).1
        (onePass nr procs fins work seq).2.1 (onePass nr procs fins work seq).2.2.1).2.2.2 = false
      rw [hfix]
      exact hff

/-- The loop preserves the invariant for any pass budget. -/
theorem safetyLoop_inv (nr : Nat) (procs : List Process) (avail : List Int)
    (hid : ∀ i, i < procs.length → (procs.getD i pdefault).id = i)
    (fuel : Nat) (fins : List Bool) (work : List Int) (seq : List Nat)
    (h : AlgInv nr procs avail fins work seq) :
    AlgInv nr procs avail (safetyLoop nr procs fuel fins work seq).1
      (safetyLoop nr procs fuel fins work seq).2.1
      (safetyLoop nr procs fuel fins work seq).2.2 := by
  induction fuel generalizing fins work seq with
  | zero => exact h
  | succ fuel ih =>
    have hinv : AlgInv nr procs avail (onePass nr procs fins work seq).1
        (onePass nr procs fins work seq).2.1 (onePass nr procs fins work seq).2.2.1 := by
      unfold onePass
      exact foldl_passStep_inv nr procs avail hid (List.range procs.length)
        (fun i hi => List.mem_range.mp hi) (fins, work, seq, false) h
    rw [safetyLoop_succ]
    by_cases hf : (onePass nr procs fins work seq).2.2.2 = true
    · rw [if_pos hf]
      exact ih _ _ _ hinv
    · rw [if_neg hf]
      exact hinv

/-- Restatement of `is_safe_state` through `finalState`. -/
theorem is_safe_state_def (s : BankersAlgorithm) :
    is_safe_state s =
      if (finalState s.resources.length s.processes s.available).1.all (fun f => f) then
        some (finalState s.resources.length s.processes s.available).2.2
      else none := rfl

/-- Unpacking of the well-formedness of a finalized state. -/
theorem wfState_parts (s : BankersAlgorithm) (h : wfState s = true) :
    s.available.length = s.resources.length ∧
    (∀ p ∈ s.processes, p.allocation.length = s.resources.length ∧
      p.need.length = s.resources.length) ∧
    (∀ i, i < s.processes.length → (s.processes.getD i pdefault).id = i) := by
  simp only [wfState, Bool.and_eq_true, List.all_eq_true, decide_eq_true_eq,
    List.mem_range] at h
  obtain ⟨⟨h1, h2⟩, h3⟩ := h
  exact ⟨h1, fun p hp => h2 p hp, fun i hi => h3 i hi⟩

/-- The invariant holds at the start of the algorithm. -/
theorem AlgInv_init (nr : Nat) (procs : List Process) (avail : List Int) :
    AlgInv nr procs avail (List.replicate procs.length false) avail [] := by
  refine ⟨List.length_replicate _ _, ?_, List.nodup_nil, ?_, rfl, rfl⟩
  · intro j hj
    cases hj
  · intro i hi
    rw [getD_replicate procs.length i false true hi]
    constructor
    · intro h
      cases h
    · intro h
      cases h

/-- The invariant holds at the final loop state. -/
theorem finalState_inv (nr : Nat) (procs : List Process) (avail : List Int)
    (hid : ∀ i, i < procs.length → (procs.getD i pdefault).id = i) :
    AlgInv nr procs avail (finalState nr procs avail).1 (finalState nr procs avail).2.1
      (finalState nr procs avail).2.2 := by
  unfold finalState
  exact safetyLoop_inv nr procs avail hid (procs.length + 1)
    (List.replicate procs.length false) avail [] (AlgInv_init nr procs avail)

/-- At the final loop state, one more pass would grant nothing. -/
theorem finalState_exit (nr : Nat) (procs : List Process) (avail : List Int) :
    (onePass nr procs (finalState nr procs avail).1 (finalState nr procs avail).2.1
      (finalState nr procs avail).2.2).2.2.2 = false := by
  unfold finalState
  apply safetyLoop_exit
  rw [countUnfin_replicate]
  omega

/-- Soundness core: a returned sequence of `is_safe_state` is a permutation
of all process indices and is safe from the available vector in the spec
sense. -/
theorem is_safe_state_some_sound (s : BankersAlgorithm) (seq : List Nat)
    (hwf : wfState s = true) (h : is_safe_state s = some seq) :
    seq.Perm (List.range s.processes.length) ∧
      safeOrderFrom s.resources.length s.processes s.available seq = true := by
  obtain ⟨hal, hpl, hid⟩ := wfState_parts s hwf
  obtain ⟨hlen, hmem, hnd, hiff, hordF, hwork⟩ :=
    finalState_inv s.resources.length s.processes s.available hid
  rw [is_safe_state_def] at h
  by_cases hall : (finalState s.resources.length s.processes s.available).1.all
      (fun f => f) = true
  · rw [if_pos hall] at h
    have hseq : seq = (finalState s.resources.length s.processes s.available).2.2 :=
      (Option.some.injEq _ _ ▸ h).symm
    subst hseq
    refine ⟨?_, hordF⟩
    have hsub1 : (finalState s.resources.length s.processes s.available).2.2 ⊆
        List.range s.processes.length := by
      intro j hj
      exact List.mem_range.mpr (hmem j hj)
    have hsub2 : List.range s.processes.length ⊆
        (finalState s.resources.length s.processes s.available).2.2 := by
      intro j hj
      have hjlt := List.mem_range.mp hj
      apply (hiff j hjlt).mp
      have hjlen : j < (finalState s.resources.length s.processes s.available).1.length := by
        rw [hlen]
        exact hjlt
      have hbmem := getD_mem (finalState s.resources.length s.processes s.available).1
        j true hjlen
      have := List.all_eq_true.mp hall _ hbmem
      exact this
    exact (List.Nodup.subperm hnd hsub1).antisymm
      (List.Nodup.subperm (List.nodup_range _) hsub2)
  · rw [if_neg hall] at h
    cases h

/-- Lookup into a released work vector. -/
theorem specRelease_getD (nr : Nat) (w : List Int) (alloc : List Nat) (k : Nat)
    (hk : k < nr) :
    (specRelease nr w alloc).getD k 0 = w.getD k 0 + (alloc.getD k 0 : Int) := by
  unfold specRelease
  exact getD_map_range _ nr k 0 hk

/-- The work after an order is the start work plus the released allocations. -/
theorem orderWork_getD (nr : Nat) (procs : List Process) (seq : List Nat) (w : List Int)
    (k : Nat) (hk : k < nr) :
    (orderWork nr procs w seq).getD k 0 =
      w.getD k 0 +
        (seq.map fun i => ((procs.getD i pdefault).allocation.getD k 0 : Int)).sum := by
  induction seq generalizing w with
  | nil => simp [orderWork]
  | cons i seq ih =>
    show (orderWork nr procs (specRelease nr w (procs.getD i pdefault).allocation) seq).getD
        k 0 = _
    rw [ih, specRelease_getD nr w _ k hk, List.map_cons, List.sum_cons]
    ring

/-- Sums of a nonnegative function over nested duplicate-free index lists. -/
theorem list_sum_le_of_subset (pre F : List Nat) (f : Nat → Int)
    (hpre : pre.Nodup) (hF : F.Nodup) (hsub : ∀ j ∈ pre, j ∈ F)
    (hf : ∀ j, 0 ≤ f j) :
    (pre.map f).sum ≤ (F.map f).sum := by
  rw [← List.sum_toFinset f hpre, ← List.sum_toFinset f hF]
  apply Finset.sum_le_sum_of_subset_of_nonneg
  · intro x hx
    exact List.mem_toFinset.mpr (hsub x (List.mem_toFinset.mp hx))
  · intro i _ _
    exact hf i

/-- Feasibility is monotone in the work vector. -/
theorem specFeasible_mono (nr : Nat) (need : List Nat) (w w2 : List Int)
    (hle : ∀ k, k < nr → w.getD k 0 ≤ w2.getD k 0)
    (h : specFeasible nr need w = true) : specFeasible nr need w2 = true := by
  rw [specFeasible, List.all_eq_true] at h ⊢
  intro k hk
  have hk2 := List.mem_range.mp hk
  have hh := h k hk
  rw [decide_eq_true_eq] at hh ⊢
  exact le_trans hh (hle k hk2)

/-- Core of the completeness argument: if every process outside the finished
list F is infeasible against the work reached after F, then every process of
a safe order whose already-processed prefix lies inside F also lies inside
F. -/
theorem cover_lemma (nr : Nat) (procs : List Process) (avail : List Int) (F : List Nat)
    (hFnd : F.Nodup)
    (hexit : ∀ i, i < procs.length → i ∉ F →
      specFeasible nr (procs.getD i pdefault).need (orderWork nr procs avail F) = false) :
    ∀ pi pre : List Nat,
      safeOrderFrom nr procs (orderWork nr procs avail pre) pi = true →
      (pre ++ pi).Nodup → (∀ j ∈ pi, j < procs.length) → (∀ j ∈ pre, j ∈ F) →
      ∀ j ∈ pi, j ∈ F := by
  intro pi
  induction pi with
  | nil =>
    intro pre _ _ _ _ j hj
    cases hj
  | cons i pi ih =>
    intro pre hord hnd hlt hpre j hj
    simp only [safeOrderFrom, Bool.and_eq_true] at hord
    have hi_lt : i < procs.length := hlt i (List.mem_cons_self i pi)
    have hprend : pre.Nodup := (List.nodup_append.mp hnd).1
    have hmono : ∀ k, k < nr →
        (orderWork nr procs avail pre).getD k 0 ≤
          (orderWork nr procs avail F).getD k 0 := by
      intro k hk
      rw [orderWork_getD nr procs pre avail k hk, orderWork_getD nr procs F avail k hk]
      have hsum := list_sum_le_of_subset pre F
        (fun i2 => ((procs.getD i2 pdefault).allocation.getD k 0 : Int)) hprend hFnd hpre
        (fun j2 => Int.natCast_nonneg _)
      omega
    have hiF : i ∈ F := by
      by_contra hnotF
      have hfeas2 := specFeasible_mono nr (procs.getD i pdefault).need _ _ hmono hord.1
      rw [hexit i hi_lt hnotF] at hfeas2
      cases hfeas2
    rcases List.mem_cons.mp hj with rfl | hj2
    · exact hiF
    · refine ih (pre ++ [i]) ?_ ?_ ?_ ?_ j hj2
      · rw [orderWork_append, orderWork_singleton]
        exact hord.2
      · rw [List.append_assoc]
        exact hnd
      · intro j2 hj3
        exact hlt j2 (List.mem_cons_of_mem i hj3)
      · intro j2 hj3
        rcases List.mem_append.mp hj3 with hj4 | hj4
        · exact hpre j2 hj4
        · rcases List.mem_singleton.mp hj4 with rfl
          exact hiF

/-- Completeness core: if some spec-level safe order over all processes
exists, `is_safe_state` succeeds. -/
theorem is_safe_state_isSome_complete (s : BankersAlgorithm) (hwf : wfState s = true)
    (pi : List Nat) (hperm : pi.Perm (List.range s.processes.length))
    (hord : safeOrderFrom s.resources.length s.processes s.available pi = true) :
    (is_safe_state s).isSome = true := by
  obtain ⟨hal, hpl, hid⟩ := wfState_parts s hwf
  obtain ⟨hlen, hmem, hnd, hiff, hordF, hwork⟩ :=
    finalState_inv s.resources.length s.processes s.available hid
  have hexit := finalState_exit s.resources.length s.processes s.available
  unfold onePass at hexit
  have hstuck := (foldl_passStep_stuck s.resources.length s.processes
    (List.range s.processes.length)
    ((finalState s.resources.length s.processes s.available).1,
      (finalState s.resources.length s.processes s.available).2.1,
      (finalState s.resources.length s.processes s.available).2.2, false) hexit).2.2
  have hexit2 : ∀ i, i < s.processes.length →
      i ∉ (finalState s.resources.length s.processes s.available).2.2 →
      specFeasible s.resources.length (s.processes.getD i pdefault).need
        (orderWork s.resources.length s.processes s.available
          (finalState s.resources.length s.processes s.available).2.2) = false := by
    intro i hi hnot
    have hfin : (finalState s.resources.length s.processes s.available).1.getD i true
        = false := by
      cases hfb : (finalState s.resources.length s.processes s.available).1.getD i true with
      | false => rfl
      | true => exact absurd ((hiff i hi).mp hfb) hnot
    have hcan := hstuck i (List.mem_range.mpr hi) hfin
    rw [canAllocate_eq_specFeasible] at hcan
    rw [← hwork]
    exact hcan
  have hall_in_F : ∀ j ∈ pi, j ∈ (finalState s.resources.length s.processes s.available).2.2 :=
    cover_lemma s.resources.length s.processes s.available
      (finalState s.resources.length s.processes s.available).2.2 hnd hexit2 pi []
      hord
      (by
        have := (hperm.nodup_iff).mpr (List.nodup_range s.processes.length)
        simpa using this)
      (fun j hj => List.mem_range.mp (hperm.mem_iff.mp hj))
      (fun j hj => absurd hj (List.not_mem_nil j))
  have halltrue : (finalState s.resources.length s.processes s.available).1.all
      (fun f => f) = true := by
    rw [List.all_eq_true]
    intro b hb
    obtain ⟨n, hn, hbn⟩ := List.mem_iff_getElem.mp hb
    have hnp : n < s.processes.length := by
      rw [← hlen]
      exact hn
    have hgd : (finalState s.resources.length s.processes s.available).1.getD n true
        = true := by
      rw [hiff n hnp]
      exact hall_in_F n (hperm.mem_iff.mpr (List.mem_range.mpr hnp))
    rw [getD_eq_getElem _ n true hn, hbn] at hgd
    exact hgd
  rw [is_safe_state_def, if_pos halltrue]
  rfl

/-- Lookup past the end of a list yields the fallback. -/
theorem getD_oob {α : Type} (l : List α) (k : Nat) (d : α) (h : l.length ≤ k) :
    l.getD k d = d := by
  rw [List.getD_eq_getElem?_getD, List.getElem?_eq_none h]
  rfl

/-- Complete case analysis of the need-derivation loop of `Process::new` on
length-matched vectors: either no index over-allocates and the loop returns
the pointwise difference, or it stops at an over-allocating index and
returns an error naming that index and its values. -/
theorem mkNeed_cases (id idx : Nat) (as ms : List Nat) (hlen : as.length = ms.length) :
    (∃ need, mkNeed id idx as ms = .ok need ∧ need.length = as.length ∧
      ∀ k, k < as.length → as.getD k 0 ≤ ms.getD k 0 ∧
        need.getD k 0 = ms.getD k 0 - as.getD k 0) ∨
    (∃ k, idx ≤ k ∧ k - idx < as.length ∧
      ms.getD (k - idx) 0 < as.getD (k - idx) 0 ∧
      mkNeed id idx as ms =
        .error (.overAllocation id k (as.getD (k - idx) 0) (ms.getD (k - idx) 0))) := by
  induction as generalizing idx ms with
  | nil =>
    cases ms with
    | nil =>
      left
      exact ⟨[], rfl, rfl, fun k hk => absurd hk (Nat.not_lt_zero k)⟩
    | cons m ms => simp at hlen
  | cons a as ih =>
    cases ms with
    | nil => simp at hlen
    | cons m ms =>
      have hlen2 : as.length = ms.length := by simpa using hlen
      by_cases hov : m < a
      · right
        refine ⟨idx, Nat.le_refl idx, ?_, ?_, ?_⟩
        · rw [Nat.sub_self]
          simp
        · rw [Nat.sub_self, List.getD_cons_zero, List.getD_cons_zero]
          exact hov
        · rw [Nat.sub_self, List.getD_cons_zero, List.getD_cons_zero]
          show mkNeed id idx (a :: as) (m :: ms) = _
          simp only [mkNeed]
          rw [if_pos hov]
      · rcases ih (idx + 1) ms hlen2 with ⟨need, hmk, hlen3, hprops⟩ | ⟨k, hk1, hk2, hk3, hmk⟩
        · left
          refine ⟨(m - a) :: need, ?_, by simp [hlen3], ?_⟩
          · show mkNeed id idx (a :: as) (m :: ms) = _
            simp only [mkNeed]
            rw [if_neg hov, hmk]
          · intro k hk
            cases k with
            | zero =>
              rw [List.getD_cons_zero, List.getD_cons_zero, List.getD_cons_zero]
              exact ⟨Nat.le_of_not_lt hov, rfl⟩
            | succ k =>
              rw [List.getD_cons_succ, List.getD_cons_succ, List.getD_cons_succ]
              exact hprops k (by simpa using hk)
        · right
          have he : k - idx = (k - (idx + 1)) + 1 := by omega
          refine ⟨k, by omega, ?_, ?_, ?_⟩
          · rw [he]
            simp only [List.length_cons]
            omega
          · rw [he, List.getD_cons_succ, List.getD_cons_succ]
            exact hk3
          · rw [he, List.getD_cons_succ, List.getD_cons_succ]
            show mkNeed id idx (a :: as) (m :: ms) = _
            simp only [mkNeed]
            rw [if_neg hov, hmk]

/-- `Process::new` with mismatched lengths fails immediately. -/
theorem process_new_ne (id : Nat) (alloc maxn : List Nat)
    (h : alloc.length ≠ maxn.length) :
    Process.new id alloc maxn = .error (.lengthMismatch id) := by
  unfold Process.new
  rw [if_pos h]

/-- `Process::new` on a successful need derivation. -/
theorem process_new_ok (id : Nat) (alloc maxn need : List Nat)
    (h : alloc.length = maxn.length) (hmk : mkNeed id 0 alloc maxn = .ok need) :
    Process.new id alloc maxn = .ok ⟨id, alloc, maxn, need⟩ := by
  unfold Process.new
  rw [if_neg (fun hne => hne h), hmk]

/-- `Process::new` on a failed need derivation. -/
theorem process_new_err (id : Nat) (alloc maxn : List Nat) (e : ProcessError)
    (h : alloc.length = maxn.length) (hmk : mkNeed id 0 alloc maxn = .error e) :
    Process.new id alloc maxn = .error e := by
  unfold Process.new
  rw [if_neg (fun hne => hne h), hmk]

/-- Releasing a (nonnegative) allocation keeps the work vector nonnegative. -/
theorem nonnegWork_addWork (nr : Nat) (w : List Int) (alloc : List Nat)
    (h : nonnegWork w = true) : nonnegWork (addWork nr w alloc) = true := by
  rw [nonnegWork, List.all_eq_true] at h ⊢
  intro x hx
  obtain ⟨k, _, rfl⟩ := List.mem_map.mp hx
  rw [decide_eq_true_eq]
  have h1 : 0 ≤ w.getD k 0 := by
    by_cases hkw : k < w.length
    · have := h _ (getD_mem w k 0 hkw)
      rwa [decide_eq_true_eq] at this
    · rw [getD_oob w k 0 (Nat.le_of_not_lt hkw)]
  exact add_nonneg h1 (Int.natCast_nonneg _)

/-- One scan step keeps the work vector nonnegative. -/
theorem nonnegWork_passStep (nr : Nat) (procs : List Process) (st : PassState) (i : Nat)
    (h : nonnegWork st.2.1 = true) : nonnegWork (passStep nr procs st i).2.1 = true := by
  unfold passStep
  split
  · split
    · exact nonnegWork_addWork nr st.2.1 _ h
    · exact h
  · exact h

/-- A whole scan keeps the work vector nonnegative at every step. -/
theorem nonnegWork_foldl (nr : Nat) (procs : List Process) (l : List Nat) (st : PassState)
    (h : nonnegWork st.2.1 = true) :
    nonnegWork ((l.foldl (passStep nr procs) st).2.1) = true := by
  induction l generalizing st with
  | nil => exact h
  | cons i l ih =>
    rw [List.foldl_cons]
    exact ih _ (nonnegWork_passStep nr procs st i h)

/-- The outer loop keeps the work vector nonnegative. -/
theorem nonnegWork_safetyLoop (nr : Nat) (procs : List Process) (fuel : Nat)
    (fins : List Bool) (work : List Int) (seq : List Nat)
    (h : nonnegWork work = true) :
    nonnegWork ((safetyLoop nr procs fuel fins work seq).2.1) = true := by
  induction fuel generalizing fins work seq with
  | zero => exact h
  | succ fuel ih =>
    have hpass : nonnegWork ((onePass nr procs fins work seq).2.1) = true := by
      unfold onePass
      exact nonnegWork_foldl nr procs (List.range procs.length) (fins, work, seq, false) h
    rw [safetyLoop_succ]
    by_cases hf : (onePass nr procs fins work seq).2.2.2 = true
    · rw [if_pos hf]
      exact ih _ _ _ hpass
    · rw [if_neg hf]
      exact hpass

/-- C1: soundness of the safety check — whenever `is_safe_state` returns a
sequence on a finalized (well-formed) system, that sequence lists every
process id exactly once, and processing the ids in the returned order
starting from work = available, each process's need is covered by work at
every resource index when it is reached, after which its allocation is added
to work. -/
theorem is_safe_state_sound (s : BankersAlgorithm) (seq : List Nat)
    (hwf : wfState s = true) (h : is_safe_state s = some seq) :
    seq.Perm (List.range s.processes.length) ∧
      safeOrderFrom s.resources.length s.processes s.available seq = true :=
  is_safe_state_some_sound s seq hwf h

/-- Witness for C1 at Scenario A. -/
theorem is_safe_state_sound_witness :
    ([1, 3, 4, 0, 2] : List Nat).Perm (List.range stateA.processes.length) ∧
      safeOrderFrom stateA.resources.length stateA.processes stateA.available
        [1, 3, 4, 0, 2] = true :=
  is_safe_state_sound stateA [1, 3, 4, 0, 2] (by decide) (by decide)

/-- C2: completeness of the safety check — on a finalized (well-formed)
system, `is_safe_state` returns a sequence iff some safe completion order of
all the processes exists; in particular a None verdict means no ordering of
all processes is a safe completion order. -/
theorem is_safe_state_complete (s : BankersAlgorithm) (hwf : wfState s = true) :
    (is_safe_state s).isSome = true ↔
      ∃ seq : List Nat, seq.Perm (List.range s.processes.length) ∧
        safeOrderFrom s.resources.length s.processes s.available seq = true := by
  constructor
  · intro h
    obtain ⟨seq, hseq⟩ := Option.isSome_iff_exists.mp h
    exact ⟨seq, is_safe_state_some_sound s seq hwf hseq⟩
  · rintro ⟨seq, hperm, hord⟩
    exact is_safe_state_isSome_complete s hwf seq hperm hord

/-- Witness for C2 at Scenario A. -/
theorem is_safe_state_complete_witness :
    ∃ seq : List Nat, seq.Perm (List.range stateA.processes.length) ∧
      safeOrderFrom stateA.resources.length stateA.processes stateA.available seq
        = true :=
  (is_safe_state_complete stateA (by decide)).mp (by decide)

/-- C3: Scenario A finalizes to the expected state and `is_safe_state`
returns exactly the sequence [1, 3, 4, 0, 2] under the ascending-id scan
with within-pass incremental work updates. -/
theorem scenario_a_exact_sequence :
    bankers_new [10, 5, 7] entriesA = .ok stateA ∧
      is_safe_state stateA = some [1, 3, 4, 0, 2] :=
  ⟨by decide, by decide⟩

/-- C8: `is_safe_state` leaves the system state unchanged (its `&mut self`
receiver is never written through), and a second invocation on the state
handed back returns the same verdict and sequence. -/
theorem is_safe_state_no_mutation (s : BankersAlgorithm) :
    (is_safe_state_mut s).1 = s ∧
      (is_safe_state_mut ((is_safe_state_mut s).1)).2 = (is_safe_state_mut s).2 ∧
      (is_safe_state_mut s).2 = is_safe_state s :=
  ⟨rfl, rfl, rfl⟩

/-- C10: `is_safe_state` reads the resources vector only through its length,
so two states with the same available vector, the same processes and
equally long resources vectors get identical verdicts even if the capacity
values differ. -/
theorem verdict_capacity_independent (s1 s2 : BankersAlgorithm)
    (hav : s1.available = s2.available) (hpr : s1.processes = s2.processes)
    (hlen : s1.resources.length = s2.resources.length) :
    is_safe_state s1 = is_safe_state s2 := by
  rw [is_safe_state_def, is_safe_state_def, hav, hpr, hlen]

/-- Witness for C10: Scenario A with capacities replaced by [9, 9, 9]. -/
theorem verdict_capacity_independent_witness :
    is_safe_state stateA = is_safe_state stateA2 :=
  verdict_capacity_independent stateA stateA2 rfl rfl rfl

/-- C7: termination of the safety loop — any pass budget beyond the number
of processes plus one gives the same result (the loop reaches its fixed
point within that many passes), and every pass that sets the found flag
strictly decreases the number of unfinished processes, so at most
`processes.length` granting passes can occur. -/
theorem safety_loop_bounded_passes (s : BankersAlgorithm) (fuel : Nat)
    (fins : List Bool) (work : List Int) (seq : List Nat)
    (hfuel : s.processes.length + 1 ≤ fuel) :
    safetyLoop s.resources.length s.processes fuel
        (List.replicate s.processes.length false) s.available [] =
      finalState s.resources.length s.processes s.available ∧
    ((onePass s.resources.length s.processes fins work seq).2.2.2 = true →
      countUnfin (onePass s.resources.length s.processes fins work seq).1 <
        countUnfin fins) := by
  constructor
  · unfold finalState
    apply safetyLoop_stable
    · rw [countUnfin_replicate]
      omega
    · rw [countUnfin_replicate]
      omega
  · exact onePass_found_decrease s.resources.length s.processes fins work seq

/-- Witness for C7 at Scenario A with a large budget. -/
theorem safety_loop_bounded_passes_witness :
    (safetyLoop stateA.resources.length stateA.processes 50
        (List.replicate stateA.processes.length false) stateA.available [] =
      finalState stateA.resources.length stateA.processes stateA.available) ∧
    ((onePass stateA.resources.length stateA.processes (List.replicate 5 false)
        [3, 3, 2] []).2.2.2 = true →
      countUnfin (onePass stateA.resources.length stateA.processes
        (List.replicate 5 false) [3, 3, 2] []).1 <
        countUnfin (List.replicate 5 false)) :=
  safety_loop_bounded_passes stateA 50 (List.replicate 5 false) [3, 3, 2] [] (by decide)

/-- C9: the work vector never goes negative — starting from a nonnegative
available vector (as finalization guarantees), the work component stays
nonnegative across every step of a scan and across every pass of the loop. -/
theorem work_never_negative (s : BankersAlgorithm) (l : List Nat) (st : PassState)
    (fuel : Nat) (fins : List Bool) (seq : List Nat)
    (hav : nonnegWork s.available = true) (hst : nonnegWork st.2.1 = true) :
    nonnegWork ((l.foldl (passStep s.resources.length s.processes) st).2.1) = true ∧
    nonnegWork
      ((safetyLoop s.resources.length s.processes fuel fins s.available seq).2.1)
      = true :=
  ⟨nonnegWork_foldl s.resources.length s.processes l st hst,
    nonnegWork_safetyLoop s.resources.length s.processes fuel fins s.available seq hav⟩

/-- Witness for C9 at Scenario A. -/
theorem work_never_negative_witness :
    nonnegWork (((List.range 5).foldl (passStep stateA.resources.length stateA.processes)
      (List.replicate 5 false, stateA.available, [], false)).2.1) = true ∧
    nonnegWork ((safetyLoop stateA.resources.length stateA.processes 6
      (List.replicate 5 false) stateA.available []).2.1) = true :=
  work_never_negative stateA (List.range 5)
    (List.replicate 5 false, stateA.available, [], false) 6 (List.replicate 5 false) []
    (by decide) (by decide)

/-- C4: the conservation invariant fails on the code — on capacities [200]
with two individually valid processes each holding 150 units, the u8 running
total wraps around, finalization succeeds, and the finalized state has
allocation sum 300 plus available 156, which is not the capacity 200. -/
theorem conservation_overflow_failure :
    bankers_new [200] [([150], [200]), ([150], [200])] = .ok stateWrapA ∧
    sumAllocAt stateWrapA.processes 0 + stateWrapA.available.getD 0 0 ≠
      (stateWrapA.resources.getD 0 0 : Int) :=
  ⟨by decide, by decide⟩

/-- C5: over-commit rejection fails on the code — on capacities [250] the
two entries (alloc [130], max [250]) are each individually valid and their
total allocation 260 exceeds the capacity 250, yet finalization succeeds
(the u8 running total wraps to 4) instead of failing with the over-commit
outcome; Scenario C itself is correctly rejected. -/
theorem overcommit_overflow_failure :
    (validEntryVec 1 [250] [130] = true ∧ validEntryVec 1 [250] [250] = true ∧
      (stateWrapB.resources.getD 0 0 : Int) < sumAllocAt stateWrapB.processes 0) ∧
    bankers_new [250] [([130], [250]), ([130], [250])] = .ok stateWrapB ∧
    bankers_new [5] [([3], [5]), ([3], [5])] = .error .overCommitted :=
  ⟨⟨by decide, by decide, by decide⟩, by decide, by decide⟩

/-- C6: contract of `Process::new` — it fails with the length-mismatch error
iff the two vectors differ in length; it fails with an over-allocation error
iff the lengths match and some allocation entry exceeds the matching
max-need entry, and every such error names an offending index together with
the allocation and max-need values at that index; otherwise it succeeds, and
a successful result stores the inputs unchanged with
need = max_need - allocation pointwise, which is nonnegative — nothing is
ever clamped. -/
theorem process_new_contract (id : Nat) (alloc maxn : List Nat) :
    ((∃ j, Process.new id alloc maxn = .error (.lengthMismatch j)) ↔
      alloc.length ≠ maxn.length) ∧
    ((∃ k, Process.new id alloc maxn =
        .error (.overAllocation id k (alloc.getD k 0) (maxn.getD k 0)) ∧
        k < alloc.length ∧ maxn.getD k 0 < alloc.getD k 0) ↔
      (alloc.length = maxn.length ∧
        ∃ k, k < alloc.length ∧ maxn.getD k 0 < alloc.getD k 0)) ∧
    (∀ j k2 a m, Process.new id alloc maxn = .error (.overAllocation j k2 a m) →
      j = id ∧ alloc.length = maxn.length ∧ k2 < alloc.length ∧
      a = alloc.getD k2 0 ∧ m = maxn.getD k2 0 ∧ m < a) ∧
    ((alloc.length = maxn.length ∧
        ∀ k, k < alloc.length → alloc.getD k 0 ≤ maxn.getD k 0) ↔
      ∃ p, Process.new id alloc maxn = .ok p) ∧
    (∀ p, Process.new id alloc maxn = .ok p →
      p.id = id ∧ p.allocation = alloc ∧ p.max_need = maxn ∧
      p.need.length = alloc.length ∧
      ∀ k, k < alloc.length →
        (p.need.getD k 0 : Int) = (maxn.getD k 0 : Int) - (alloc.getD k 0 : Int) ∧
        0 ≤ (p.need.getD k 0 : Int)) := by
  by_cases hl : alloc.length = maxn.length
  · rcases mkNeed_cases id 0 alloc maxn hl with ⟨need, hmk, hlen3, hprops⟩ |
      ⟨k, _, hk2, hk3, hmk⟩
    · have hok := process_new_ok id alloc maxn need hl hmk
      refine ⟨?_, ?_, ?_, ?_, ?_⟩
      · constructor
        · rintro ⟨j, hj⟩
          rw [hok] at hj
          simp at hj
        · intro hne
          exact absurd hl hne
      · constructor
        · rintro ⟨k, hj, -, -⟩
          rw [hok] at hj
          simp at hj
        · rintro ⟨-, k, hk, hov⟩
          exact absurd (hprops k hk).1 (Nat.not_le_of_lt hov)
      · intro j k2 a m hp
        rw [hok] at hp
        simp at hp
      · constructor
        · intro _
          exact ⟨⟨id, alloc, maxn, need⟩, hok⟩
        · intro _
          exact ⟨hl, fun k hk => (hprops k hk).1⟩
      · intro p hp
        rw [hok] at hp
        injection hp with hp2
        subst hp2
        refine ⟨rfl, rfl, rfl, hlen3, ?_⟩
        intro k hk
        obtain ⟨hle, heq⟩ := hprops k hk
        rw [heq]
        constructor
        · omega
        · omega
    · rw [Nat.sub_zero] at hk2 hk3 hmk
      have herr := process_new_err id alloc maxn _ hl hmk
      refine ⟨?_, ?_, ?_, ?_, ?_⟩
      · constructor
        · rintro ⟨j, hj⟩
          rw [herr] at hj
          simp at hj
        · intro hne
          exact absurd hl hne
      · constructor
        · intro _
          exact ⟨hl, k, hk2, hk3⟩
        · intro _
          exact ⟨k, herr, hk2, hk3⟩
      · intro j k2 a m hp
        rw [herr] at hp
        injection hp with hpe
        injection hpe with e1 e2 e3 e4
        subst e1
        subst e2
        subst e3
        subst e4
        exact ⟨rfl, hl, hk2, rfl, rfl, hk3⟩
      · constructor
        · rintro ⟨-, hall⟩
          exact absurd (hall k hk2) (Nat.not_le_of_lt hk3)
        · rintro ⟨p, hp⟩
          rw [herr] at hp
          simp at hp
      · intro p hp
        rw [herr] at hp
        simp at hp
  · have hne := process_new_ne id alloc maxn hl
    refine ⟨?_, ?_, ?_, ?_, ?_⟩
    · exact ⟨fun _ => hl, fun _ => ⟨id, hne⟩⟩
    · constructor
      · rintro ⟨k, hj, -, -⟩
        rw [hne] at hj
        simp at hj
      · rintro ⟨heq, -⟩
        exact absurd heq hl
    · intro j k2 a m hp
      rw [hne] at hp
      simp at hp
    · constructor
      · rintro ⟨heq, -⟩
        exact absurd heq hl
      · rintro ⟨p, hp⟩
        rw [hne] at hp
        simp at hp
    · intro p hp
      rw [hne] at hp
      simp at hp

/-- Witness for C6: a concrete successful construction and a concrete
over-allocation failure naming the offending index with its values, both
obtained through the contract. -/
theorem process_new_contract_witness :
    (∃ p, Process.new 7 [1, 2] [3, 2] = .ok p) ∧
    (∃ k, Process.new 0 [5] [3] =
        .error (.overAllocation 0 k (([5] : List Nat).getD k 0)
          (([3] : List Nat).getD k 0)) ∧
      k < ([5] : List Nat).length ∧
      ([3] : List Nat).getD k 0 < ([5] : List Nat).getD k 0) :=
  ⟨(process_new_contract 7 [1, 2] [3, 2]).2.2.2.1.mp ⟨rfl, by decide⟩,
   (process_new_contract 0 [5] [3]).2.1.mpr ⟨rfl, 0, by decide, by decide⟩⟩
